import Mathlib

/-!
Verification development for the logseq-utils text-transformation tools.

Strings are modelled as `List Char`; a text buffer is one `List Char` and a
line is a newline-free `List Char`.  Each definition is a direct translation
of the corresponding Python function in the repository (names are kept in
snake case where the source has them).
-/

namespace LogseqUtils

/-- Whitespace characters stripped by Python's `str.strip()` (ASCII whitespace
plus the common Unicode space characters). -/
def pyIsSpace (c : Char) : Bool :=
  c = ' ' || c = '\t' || c = '\n' || c = '\r' || c = '\x0b' || c = '\x0c' ||
  c.val = 0x1c || c.val = 0x1d || c.val = 0x1e || c.val = 0x1f ||
  c.val = 0x85 || c.val = 0xa0 || c.val = 0x1680 ||
  (0x2000 ≤ c.val && c.val ≤ 0x200a) ||
  c.val = 0x2028 || c.val = 0x2029 || c.val = 0x202f || c.val = 0x205f ||
  c.val = 0x3000

/-- Python `str.lstrip()`. -/
def lstrip (s : List Char) : List Char := s.dropWhile pyIsSpace

/-- Python `str.rstrip()`. -/
def rstrip (s : List Char) : List Char := (s.reverse.dropWhile pyIsSpace).reverse

/-- Python `str.strip()`. -/
def pstrip (s : List Char) : List Char := rstrip (lstrip s)

/-- Python `content.split("\n")`: split on every newline, yielding `[[]]`
for the empty string (`List.splitOn` has exactly these semantics). -/
def splitOnNewline (s : List Char) : List (List Char) :=
  s.splitOn '\n'

/-- Python `"\n".join(lines)`. -/
def intercalateNewline (ls : List (List Char)) : List Char :=
  List.intercalate ['\n'] ls

/-- `get_indentation_level` from `clean_journal.py`:
`len(line) - len(line.lstrip())`. -/
def get_indentation_level (line : List Char) : Nat :=
  line.length - (lstrip line).length

/-- `is_section_heading` from `clean_journal.py`: the stripped line, after
removing a leading `"- "` when it starts with `"- ##"`, must start with
`"##"`. -/
def is_section_heading (line : List Char) : Bool :=
  let stripped := pstrip line
  let stripped := if ['-', ' ', '#', '#'].isPrefixOf stripped
                  then stripped.drop 2 else stripped
  ['#', '#'].isPrefixOf stripped

/-- The `Section` dataclass from `clean_journal.py`. -/
structure Sec where
  heading : List Char
  indent_level : Nat
  content : List (List Char × Nat)
  deriving DecidableEq, Repr

/-- The scanning loop of `has_nested_content`, with the two mutable flags
`has_content` and `has_only_headings` threaded explicitly; a `(true, false)`
result without recursion corresponds to the `break`. -/
def hasNestedLoop (lvl : Nat) : List (List Char × Nat) → Bool → Bool → Bool × Bool
  | [], hc, hoh => (hc, hoh)
  | (line, indent) :: rest, hc, hoh =>
    if pstrip line = [] then hasNestedLoop lvl rest hc hoh
    else if lvl < indent then
      if is_section_heading line then hasNestedLoop lvl rest true hoh
      else (true, false)
    else hasNestedLoop lvl rest hc hoh

/-- `has_nested_content` from `clean_journal.py`. -/
def has_nested_content (s : Sec) : Bool :=
  let r := hasNestedLoop s.indent_level s.content false true
  r.1 && !r.2

/-- `process_section` from `clean_journal.py`, returning the lines it appends
to `cleaned_lines`. -/
def process_section (s : Sec) : List (List Char) :=
  if has_nested_content s then
    s.heading :: s.content.map Prod.fst
  else
    (s.content.filter (fun p => p.2 ≤ s.indent_level)).map Prod.fst

/-- The line loop of `clean_journal_content`, with the `current_section`
state variable made explicit. -/
def cleanGo : Option Sec → List (List Char) → List (List Char)
  | none, [] => []
  | some s, [] => process_section s
  | cur, line :: rest =>
    if is_section_heading line then
      (match cur with
        | some s => process_section s
        | none => []) ++
      cleanGo (some ⟨line, get_indentation_level line, []⟩) rest
    else
      match cur with
      | some s =>
        if get_indentation_level line ≤ s.indent_level then
          process_section s ++ line :: cleanGo none rest
        else
          cleanGo (some ⟨s.heading, s.indent_level,
                         s.content ++ [(line, get_indentation_level line)]⟩) rest
      | none => line :: cleanGo none rest

/-- `clean_journal_content` from `clean_journal.py`. -/
def clean_journal_content (content : List Char) : List Char :=
  intercalateNewline (cleanGo none (splitOnNewline content))

/-! ### The section-tree-builder view of the cleaner loop

`clean_journal_content` interleaves classification and rendering.  `Item`
and `buildItems` separate the classification: the loop emits a stream of
completed sections and standalone passthrough lines.  `cleanGo_eq_buildItems`
below certifies this decomposition against `cleanGo`. -/

/-- An output unit of the section tree builder: a completed section or a
standalone passthrough line. -/
inductive Item where
  | sec (s : Sec)
  | plain (line : List Char)
  deriving DecidableEq, Repr

/-- The classification part of the `clean_journal_content` loop. -/
def buildItems : Option Sec → List (List Char) → List Item
  | none, [] => []
  | some s, [] => [.sec s]
  | cur, line :: rest =>
    if is_section_heading line then
      (match cur with
        | some s => [Item.sec s]
        | none => []) ++
      buildItems (some ⟨line, get_indentation_level line, []⟩) rest
    else
      match cur with
      | some s =>
        if get_indentation_level line ≤ s.indent_level then
          Item.sec s :: Item.plain line :: buildItems none rest
        else
          buildItems (some ⟨s.heading, s.indent_level,
                            s.content ++ [(line, get_indentation_level line)]⟩) rest
      | none => Item.plain line :: buildItems none rest

/-- All raw lines held by an item: the heading plus content lines of a
section, or the single passthrough line. -/
def itemLines : Item → List (List Char)
  | .sec s => s.heading :: s.content.map Prod.fst
  | .plain l => [l]

/-- The clean-policy rendering of an item. -/
def renderClean : Item → List (List Char)
  | .sec s => process_section s
  | .plain l => [l]

/-! ### The Markdown → Logseq outline converter (`md_to_logseq_outline.py`) -/

/-- Line-break characters recognised by Python's `str.splitlines()`. -/
def pyIsLineBreak (c : Char) : Bool :=
  c = '\n' || c = '\r' || c = '\x0b' || c = '\x0c' ||
  c.val = 0x1c || c.val = 0x1d || c.val = 0x1e ||
  c.val = 0x85 || c.val = 0x2028 || c.val = 0x2029

/-- Accumulating worker for `splitlines`; a `"\r\n"` pair ends one line. -/
def splitlinesAux : List Char → List Char → List (List Char)
  | acc, [] => if acc = [] then [] else [acc.reverse]
  | acc, '\r' :: '\n' :: rest => acc.reverse :: splitlinesAux [] rest
  | acc, c :: rest =>
    if pyIsLineBreak c then acc.reverse :: splitlinesAux [] rest
    else splitlinesAux (c :: acc) rest

/-- Python `str.splitlines()`. -/
def splitlines (s : List Char) : List (List Char) :=
  splitlinesAux [] s

/-- Remove a trailing run of `#` characters. -/
def stripTrailingHashes (body : List Char) : List Char :=
  (body.reverse.dropWhile (fun c => c = '#')).reverse

/-- The heading-text extraction of the ATX matcher: right-strip, then remove
an optional trailing `#` run, right-stripping again when one was removed. -/
def atxText (raw : List Char) : List Char :=
  if stripTrailingHashes (rstrip raw) = rstrip raw then rstrip raw
  else rstrip (stripTrailingHashes (rstrip raw))

/-- Modelled from the spec: `parse_atx_heading`, imported by
`md_to_logseq_outline.py` from a `utils` module whose copy under `src/` does
not define it.  Per the spec (§4.1) and the `ATX_HEADING_RE` regex
`^(#{1,6})\s+(.*?)\s*(#+\s*)?$` left in `md_to_logseq_outline.py`: one to six
`#` characters, at least one whitespace character after the hashes, and the
heading text is the remainder, leading whitespace dropped, with an optional
trailing run of `#` characters and trailing whitespace stripped. -/
def parse_atx_heading (s : List Char) : Option (Nat × List Char) :=
  if 1 ≤ (s.takeWhile (fun c => c = '#')).length ∧
     (s.takeWhile (fun c => c = '#')).length ≤ 6 then
    match s.drop (s.takeWhile (fun c => c = '#')).length with
    | [] => none
    | c :: rest =>
      if pyIsSpace c then
        some ((s.takeWhile (fun c => c = '#')).length,
              atxText ((c :: rest).dropWhile pyIsSpace))
      else none
  else none

/-- Modelled from the spec: `is_setext_underline`, imported by
`md_to_logseq_outline.py` from a `utils` module whose copy under `src/` does
not define it.  Per the spec (§4.1): a line consisting solely of repeated `=`
(level 1) or repeated `-` (level 2), minimum length 1, possibly surrounded by
whitespace. -/
def is_setext_underline (line : List Char) : Option Nat :=
  if pstrip line ≠ [] && (pstrip line).all (fun c => c = '=') then some 1
  else if pstrip line ≠ [] && (pstrip line).all (fun c => c = '-') then some 2
  else none

/-- Modelled from the spec: `make_indent`, imported by
`md_to_logseq_outline.py` from a `utils` module whose copy under `src/` does
not define it.  Per the spec (§4.3): output indentation is `width` spaces per
abstraction-indent level (the converter passes `width=2`). -/
def make_indent (level width : Nat) : List Char :=
  List.replicate (level * width) ' '

/-- Paragraph grouping mode of the converter (`--paragraph-mode`). -/
inductive PMode where
  | lines
  | blocks
  deriving DecidableEq, Repr

/-- A parsed markdown block: `("heading", level, text)` or
`("paragraph", None, text)` in the Python representation. -/
inductive Block where
  | heading (level : Nat) (text : List Char)
  | paragraph (text : List Char)
  deriving DecidableEq, Repr

/-- The space-joined text of the individually stripped, non-blank pending
paragraph lines (`" ".join(line.strip() for line in pending if line.strip())`). -/
def flushText (pending : List (List Char)) : List Char :=
  List.intercalate [' '] ((pending.filter (fun l => pstrip l ≠ [])).map pstrip)

/-- The `flush_paragraph` closure of `parse_markdown_blocks`: the blocks it
appends for the pending paragraph lines. -/
def flushParagraph (pending : List (List Char)) : List Block :=
  if pending = [] then []
  else if flushText pending = [] then []
  else [.paragraph (flushText pending)]

/-- The heading candidate of a stripped line: the remainder after an
optional `"- "` bullet, re-stripped. -/
def bulletCandidate (stripped : List Char) : List Char :=
  if ['-', ' '].isPrefixOf stripped then pstrip (stripped.drop 2) else stripped

/-- The scanning loop of `parse_markdown_blocks`, with the pending-paragraph
accumulator made explicit.  The one-line-left case is the loop iteration
with no `lines[i+1]` lookahead available. -/
def parseBlocksGo (mode : PMode) : List (List Char) → List (List Char) → List Block
  | pending, [] => flushParagraph pending
  | pending, [line] =>
    if pstrip line = [] then
      if mode = .blocks then flushParagraph pending ++ parseBlocksGo mode [] []
      else parseBlocksGo mode pending []
    else
      match parse_atx_heading (bulletCandidate (pstrip line)) with
      | some (lvl, text) =>
        (if mode = .blocks then flushParagraph pending else []) ++
        Block.heading lvl text ::
        parseBlocksGo mode (if mode = .blocks then [] else pending) []
      | none =>
        if mode = .lines then
          Block.paragraph (pstrip line) :: parseBlocksGo mode pending []
        else parseBlocksGo mode (pending ++ [line]) []
  | pending, line :: underline :: rest2 =>
    if pstrip line = [] then
      if mode = .blocks then
        flushParagraph pending ++ parseBlocksGo mode [] (underline :: rest2)
      else parseBlocksGo mode pending (underline :: rest2)
    else
      match parse_atx_heading (bulletCandidate (pstrip line)) with
      | some (lvl, text) =>
        (if mode = .blocks then flushParagraph pending else []) ++
        Block.heading lvl text ::
        parseBlocksGo mode (if mode = .blocks then [] else pending)
          (underline :: rest2)
      | none =>
        match is_setext_underline underline with
        | some lvl =>
          (if mode = .blocks then flushParagraph pending else []) ++
          Block.heading lvl (pstrip line) ::
          parseBlocksGo mode (if mode = .blocks then [] else pending) rest2
        | none =>
          if mode = .lines then
            Block.paragraph (pstrip line) ::
            parseBlocksGo mode pending (underline :: rest2)
          else parseBlocksGo mode (pending ++ [line]) (underline :: rest2)

/-- `parse_markdown_blocks` from `md_to_logseq_outline.py`. -/
def parse_markdown_blocks (text : List Char) (mode : PMode) : List Block :=
  parseBlocksGo mode [] (splitlines text)

/-- The Logseq property-line pattern `^[A-Za-z0-9_-][A-Za-z0-9 _-]*::` used
by `convert_to_logseq_outline` (via `re.match`). -/
def propertyLineMatch (s : List Char) : Bool :=
  match s with
  | [] => false
  | c :: rest =>
    (c.isAlphanum || c = '_' || c = '-') &&
    [':', ':'].isPrefixOf
      (rest.dropWhile (fun c => c.isAlphanum || c = ' ' || c = '_' || c = '-'))

/-- The rendering loop of `convert_to_logseq_outline`, with the
`current_heading_level` state variable made explicit. -/
def renderBlocks : Nat → List Block → List (List Char)
  | _, [] => []
  | _, .heading lvl text :: rest =>
    (make_indent (max 0 (lvl - 1)) 2 ++ ['-', ' '] ++
       List.replicate lvl '#' ++ [' '] ++ text) ::
    renderBlocks lvl rest
  | cur, .paragraph text :: rest =>
    let base := if 0 < cur then cur else 0
    let candidate := if ['-', ' '].isPrefixOf text then lstrip (text.drop 2) else text
    (if propertyLineMatch candidate then make_indent base 2 ++ candidate
     else make_indent base 2 ++ ['-', ' '] ++ candidate) ::
    renderBlocks cur rest

/-- `convert_to_logseq_outline` from `md_to_logseq_outline.py`. -/
def convert_to_logseq_outline (text : List Char) (mode : PMode) : List Char :=
  let outline := renderBlocks 0 (parse_markdown_blocks text mode)
  intercalateNewline outline ++ (if outline = [] then [] else ['\n'])

/-! ### CLI control-flow models for the two converters' `main` functions

File-system effects are modelled as an explicit trace; reads are assumed to
succeed (`OSError` branches and file-existence checks are out of scope: the
claims below concern only the flag-validation control flow, which in the
source never reaches those branches differently). -/

/-- An observable step of a `main` run. -/
inductive Eff where
  | readInput
  | transform
  | writeOut
  deriving DecidableEq, Repr

/-- Arguments of `md_to_logseq_outline.py main`. -/
structure MdArgs where
  input : Option (List Char)
  paragraphMode : PMode
  output : Option (List Char)
  inPlace : Bool

/-- `main` from `md_to_logseq_outline.py`: read, convert, then validate the
flag combination, then write.  Returns the exit code, the effect trace, and
the text written (`none` when nothing was written). -/
def md_main (args : MdArgs) (text : List Char) : Nat × List Eff × Option (List Char) :=
  let converted := convert_to_logseq_outline text args.paragraphMode
  let pre := [Eff.readInput, Eff.transform]
  if args.inPlace && args.output.isSome then (2, pre, none)
  else if args.inPlace then
    match args.input with
    | none => (2, pre, none)
    | some _ => (0, pre ++ [Eff.writeOut], some converted)
  else (0, pre ++ [Eff.writeOut], some converted)

/-- Arguments of `clean_perplexity_sources.py main`. -/
structure PpxArgs where
  input : Option (List Char)
  output : Option (List Char)
  inPlace : Bool
  preview : Bool

/-- `main` from `clean_perplexity_sources.py`: validate the flag combination
first, then read, clean and write.  The regex cleaning itself is outside the
modelled core; the trace records that it ran.  Returns the exit code, the
effect trace, and whether output was written. -/
def ppx_main (args : PpxArgs) : Nat × List Eff × Bool :=
  if args.inPlace && args.output.isSome then (2, [], false)
  else if args.inPlace && args.input.isNone then (2, [], false)
  else
    let pre := [Eff.readInput, Eff.transform]
    if args.preview then (0, pre, false)
    else (0, pre ++ [Eff.writeOut], true)

/-! ### Spec-side definitions used for refinement comparisons -/

/-- The heading candidate inspected by `is_section_heading`: the stripped
line after the optional `"- "` bullet removal. -/
def headingCandidate (line : List Char) : List Char :=
  let stripped := pstrip line
  if ['-', ' ', '#', '#'].isPrefixOf stripped then stripped.drop 2 else stripped

/-- Number of leading `#` characters. -/
def leadingHashCount (s : List Char) : Nat :=
  (s.takeWhile (fun c => c = '#')).length

/-- The spec's journal-cleaner heading rule, written from the spec's words
(§4.1: "a line is a heading iff the (possibly bullet-stripped) stripped text
starts with one to six `#` characters"), for comparison with
`is_section_heading`. -/
def specHeadingOneToSix (line : List Char) : Bool :=
  let k := leadingHashCount (headingCandidate line)
  1 ≤ k && k ≤ 6

/-! ## Helper lemmas -/

/-- A content entry that establishes "nested content": non-blank, strictly
deeper than the section floor, and not itself a heading. -/
def contentWitness (lvl : Nat) (p : List Char × Nat) : Bool :=
  !(pstrip p.1).isEmpty && decide (lvl < p.2) && !is_section_heading p.1

theorem hasNestedLoop_eq_any (lvl : Nat) (content : List (List Char × Nat)) :
    ∀ hc : Bool,
      ((hasNestedLoop lvl content hc true).1 && !(hasNestedLoop lvl content hc true).2)
        = content.any (contentWitness lvl) := by
  induction content with
  | nil => intro hc; simp [hasNestedLoop]
  | cons p rest ih =>
    intro hc
    obtain ⟨line, indent⟩ := p
    by_cases hblank : pstrip line = []
    · simp [hasNestedLoop, hblank, contentWitness, ih]
    · by_cases hdeep : lvl < indent
      · by_cases hhead : is_section_heading line
        · simp [hasNestedLoop, hblank, hdeep, hhead, contentWitness, ih,
                List.isEmpty_iff]
        · simp [hasNestedLoop, hblank, hdeep, hhead, contentWitness,
                List.isEmpty_iff]
      · simp [hasNestedLoop, hblank, hdeep, contentWitness, ih,
              List.isEmpty_iff]

theorem has_nested_content_eq_any (s : Sec) :
    has_nested_content s = s.content.any (contentWitness s.indent_level) := by
  simpa [has_nested_content] using
    hasNestedLoop_eq_any s.indent_level s.content false

theorem has_nested_content_iff (s : Sec) :
    has_nested_content s = true ↔
      ∃ p ∈ s.content,
        pstrip p.1 ≠ [] ∧ s.indent_level < p.2 ∧ is_section_heading p.1 = false := by
  rw [has_nested_content_eq_any, List.any_eq_true]
  constructor
  · rintro ⟨p, hp, hw⟩
    simp only [contentWitness, Bool.and_eq_true, Bool.not_eq_true',
      List.isEmpty_eq_false, decide_eq_true_eq] at hw
    exact ⟨p, hp, hw.1.1, hw.1.2, hw.2⟩
  · rintro ⟨p, hp, h1, h2, h3⟩
    refine ⟨p, hp, ?_⟩
    simp only [contentWitness, Bool.and_eq_true, Bool.not_eq_true',
      List.isEmpty_eq_false, decide_eq_true_eq]
    exact ⟨⟨h1, h2⟩, h3⟩

/-! ## Claim C1 -/

/-- C1: for every completed `Section`, the clean policy keeps the heading
line together with all of its content lines, in original order and with
original indentation, if and only if the section's content — excluding blank
lines — holds at least one line with indent strictly greater than the
section's `indent_level` that is not itself a heading line; otherwise the
heading and all deeper-indented content lines are discarded (only content
lines with indent at most `indent_level` are emitted). -/
theorem c1_clean_policy_retention (s : Sec) :
    (has_nested_content s = true ↔
      ∃ p ∈ s.content,
        pstrip p.1 ≠ [] ∧ s.indent_level < p.2 ∧ is_section_heading p.1 = false) ∧
    (has_nested_content s = true →
      process_section s = s.heading :: s.content.map Prod.fst) ∧
    (has_nested_content s = false →
      process_section s =
        (s.content.filter (fun p => p.2 ≤ s.indent_level)).map Prod.fst) := by
  refine ⟨has_nested_content_iff s, fun h => ?_, fun h => ?_⟩
  · simp [process_section, h]
  · simp [process_section, h]

/-- Witness for C1 at a concrete section with one deeper non-blank
non-heading content line. -/
theorem c1_clean_policy_retention_witness :
    process_section ⟨"## h".toList, 0, [("  x".toList, 2)]⟩ =
      "## h".toList :: [("  x".toList, 2)].map Prod.fst :=
  (c1_clean_policy_retention ⟨"## h".toList, 0, [("  x".toList, 2)]⟩).2.1 (by decide)

/-! ## The builder decomposition and its invariants -/

theorem cleanGo_eq_buildItems (ls : List (List Char)) :
    ∀ cur, cleanGo cur ls = (buildItems cur ls).flatMap renderClean := by
  induction ls with
  | nil => intro cur; cases cur <;> simp [cleanGo, buildItems, renderClean]
  | cons l rest ih =>
    intro cur
    by_cases hh : is_section_heading l
    · cases cur <;> simp [cleanGo, buildItems, hh, renderClean, ih]
    · cases cur with
      | none => simp [cleanGo, buildItems, hh, renderClean, ih]
      | some s =>
        by_cases hle : get_indentation_level l ≤ s.indent_level
        · simp [cleanGo, buildItems, hh, hle, renderClean, ih]
        · simp [cleanGo, buildItems, hh, hle, renderClean, ih]

/-- The raw lines already owned by the builder state. -/
def pendingLines : Option Sec → List (List Char)
  | none => []
  | some s => s.heading :: s.content.map Prod.fst

theorem buildItems_lines (ls : List (List Char)) :
    ∀ cur, (buildItems cur ls).flatMap itemLines = pendingLines cur ++ ls := by
  induction ls with
  | nil => intro cur; cases cur <;> simp [buildItems, pendingLines, itemLines]
  | cons l rest ih =>
    intro cur
    by_cases hh : is_section_heading l
    · cases cur <;> simp [buildItems, hh, itemLines, pendingLines, ih]
    · cases cur with
      | none => simp [buildItems, hh, itemLines, pendingLines, ih]
      | some s =>
        by_cases hle : get_indentation_level l ≤ s.indent_level
        · simp [buildItems, hh, hle, itemLines, pendingLines, ih]
        · simp [buildItems, hh, hle, itemLines, pendingLines, ih]

/-- The invariant the builder maintains for every section it produces: the
floor is the heading's own indent, and every content entry carries its line's
indent, lies strictly below the floor, and is not a heading. -/
def okSec (s : Sec) : Prop :=
  is_section_heading s.heading = true ∧
  s.indent_level = get_indentation_level s.heading ∧
  ∀ p ∈ s.content, p.2 = get_indentation_level p.1 ∧
    s.indent_level < p.2 ∧ is_section_heading p.1 = false

theorem buildItems_okSec (ls : List (List Char)) :
    ∀ cur, (∀ s₀, cur = some s₀ → okSec s₀) →
      ∀ s, Item.sec s ∈ buildItems cur ls → okSec s := by
  induction ls with
  | nil =>
    intro cur hcur s hs
    cases cur with
    | none => simp [buildItems] at hs
    | some s₀ =>
      simp [buildItems] at hs
      exact hs ▸ hcur s₀ rfl
  | cons l rest ih =>
    intro cur hcur s hs
    by_cases hh : is_section_heading l
    · have hnew : okSec ⟨l, get_indentation_level l, []⟩ := by
        refine ⟨hh, rfl, ?_⟩; intro p hp; simp at hp
      cases cur with
      | none =>
        simp [buildItems, hh] at hs
        exact ih _ (by rintro s₀ ⟨rfl⟩; exact hnew) s hs
      | some s₀ =>
        simp [buildItems, hh] at hs
        rcases hs with hs | hs
        · exact hs ▸ hcur s₀ rfl
        · exact ih _ (by rintro s₁ ⟨rfl⟩; exact hnew) s hs
    · cases cur with
      | none =>
        simp [buildItems, hh] at hs
        exact ih none (by rintro s₀ ⟨⟩) s hs
      | some s₀ =>
        by_cases hle : get_indentation_level l ≤ s₀.indent_level
        · simp [buildItems, hh, hle] at hs
          rcases hs with hs | hs
          · exact hs ▸ hcur s₀ rfl
          · exact ih none (by rintro s₁ ⟨⟩) s hs
        · simp [buildItems, hh, hle] at hs
          refine ih _ ?_ s hs
          rintro s₁ ⟨rfl⟩
          obtain ⟨h0, h1, h2⟩ := hcur s₀ rfl
          refine ⟨h0, h1, ?_⟩
          intro p hp
          simp at hp
          rcases hp with hp | hp
          · exact h2 p hp
          · subst hp
            refine ⟨rfl, ?_, ?_⟩
            · show s₀.indent_level < get_indentation_level l
              omega
            · simpa using hh

/-! ## Claim C5 -/

/-- C5: structural completeness of the builder.  For every input line
sequence, flattening the builder's output units (heading plus content of
each completed section, or the single passthrough line) reproduces the input
exactly — every line ends up in exactly one place and none is lost during
classification; the rendering stage (`renderClean`, i.e. `process_section`)
is the only place lines are dropped, as certified by the decomposition of
`cleanGo`. -/
theorem c5_structural_completeness (ls : List (List Char)) :
    (buildItems none ls).flatMap itemLines = ls ∧
    cleanGo none ls = (buildItems none ls).flatMap renderClean :=
  ⟨by simpa [pendingLines] using buildItems_lines ls none,
   cleanGo_eq_buildItems ls none⟩

/-! ## Claim C9 -/

/-- C9: every `(line, indent)` pair stored in a builder-produced section's
content satisfies `indent > indent_level`; consequently, when such a section
is judged empty, `process_section`'s fallback that keeps content lines with
`indent ≤ indent_level` selects nothing, so dropping the section removes its
heading and every collected content line. -/
theorem c9_content_indent_invariant (ls : List (List Char)) (s : Sec)
    (hmem : Item.sec s ∈ buildItems none ls) :
    (∀ p ∈ s.content, s.indent_level < p.2) ∧
    (has_nested_content s = false → process_section s = []) := by
  have hok := buildItems_okSec ls none (by rintro s₀ ⟨⟩) s hmem
  constructor
  · intro p hp; exact (hok.2.2 p hp).2.1
  · intro hn
    have hfil : s.content.filter (fun p => p.2 ≤ s.indent_level) = [] := by
      rw [List.filter_eq_nil_iff]
      intro p hp
      have := (hok.2.2 p hp).2.1
      simp only [decide_eq_true_eq]
      omega
    simp [process_section, hn, hfil]

/-- Witness for C9 at a concrete two-line journal. -/
theorem c9_content_indent_invariant_witness :
    (∀ p ∈ (⟨"## A".toList, 0, [("  x".toList, 2)]⟩ : Sec).content,
      (⟨"## A".toList, 0, [("  x".toList, 2)]⟩ : Sec).indent_level < p.2) ∧
    (has_nested_content ⟨"## A".toList, 0, [("  x".toList, 2)]⟩ = false →
      process_section ⟨"## A".toList, 0, [("  x".toList, 2)]⟩ = []) :=
  c9_content_indent_invariant ["## A".toList, "  x".toList] _ (by decide)

/-! ## Claim C4 -/

/-- C4 counterexample: on the concrete input `["## A", "  x", "  ## B"]` the
embedded deeper heading `"  ## B"` (indent 2, strictly deeper than the open
section's floor 0) does **not** get appended to the open section's content:
it closes `"## A"` and starts a Section of its own. -/
theorem c4_counterexample :
    buildItems none ["## A".toList, "  x".toList, "  ## B".toList] =
      [Item.sec ⟨"## A".toList, 0, [("  x".toList, 2)]⟩,
       Item.sec ⟨"  ## B".toList, 2, []⟩] ∧
    is_section_heading "  ## B".toList = true ∧
    get_indentation_level "  ## B".toList = 2 ∧ (0 : Nat) < 2 ∧
    "  ## B".toList ∉ ([("  x".toList, 2)] : List (List Char × Nat)).map Prod.fst := by
  decide

/-- C4 amended: a heading line, whatever its indent, closes the currently
open section (emitting it) and starts a new Section of its own; accordingly
no builder-produced section ever holds a heading line in its content. -/
theorem c4_heading_starts_new_section :
    (∀ cur line ls, is_section_heading line = true →
      buildItems cur (line :: ls) =
        (match cur with | some s => [Item.sec s] | none => []) ++
        buildItems (some ⟨line, get_indentation_level line, []⟩) ls) ∧
    (∀ ls s, Item.sec s ∈ buildItems none ls →
      ∀ p ∈ s.content, is_section_heading p.1 = false) := by
  constructor
  · intro cur line ls h
    cases cur <;> simp [buildItems, h]
  · intro ls s hmem p hp
    exact ((buildItems_okSec ls none (by rintro s₀ ⟨⟩) s hmem).2.2 p hp).2.2

/-- Witness for C4 (amended) at a concrete heading deeper than the open
section's floor. -/
theorem c4_heading_starts_new_section_witness :
    buildItems (some ⟨"## A".toList, 0, []⟩) ["  ## B".toList] =
      [Item.sec ⟨"## A".toList, 0, []⟩] ++
      buildItems (some ⟨"  ## B".toList, get_indentation_level "  ## B".toList, []⟩) [] :=
  c4_heading_starts_new_section.1 (some ⟨"## A".toList, 0, []⟩)
    "  ## B".toList [] (by decide)

/-! ## Claim C3 -/

theorem isPrefixOf_hashes_iff (s : List Char) :
    (['#', '#'].isPrefixOf s = true) ↔ 2 ≤ leadingHashCount s := by
  match s with
  | [] => simp [List.isPrefixOf, leadingHashCount]
  | [a] =>
    by_cases h : a = '#' <;>
      simp [List.isPrefixOf, leadingHashCount, List.takeWhile, h]
  | a :: b :: t =>
    by_cases ha : a = '#' <;> by_cases hb : b = '#' <;>
      simp [List.isPrefixOf, leadingHashCount, List.takeWhile, ha, hb] <;>
      first
        | omega
        | (intro hx; exact absurd hx.symm (by assumption))

/-- C3 counterexample: the journal cleaner's classifier and the spec's
one-to-six-hash rule disagree on concrete lines: `"# Title"` (one hash)
satisfies the spec rule but is not classified as a heading, and
`"####### T"` (seven hashes) fails the spec rule but is classified as a
heading. -/
theorem c3_counterexample :
    specHeadingOneToSix "# Title".toList = true ∧
    is_section_heading "# Title".toList = false ∧
    specHeadingOneToSix "####### T".toList = false ∧
    is_section_heading "####### T".toList = true := by
  decide

/-- C3 amended: a raw line is classified as a section heading by the journal
cleaner iff, after stripping whitespace and optionally removing a leading
`"- "` bullet (when the stripped text starts with `"- ##"`), the remaining
text starts with at least two `#` characters — one hash is not enough and
seven or more also qualify. -/
theorem c3_amended_heading_rule (line : List Char) :
    is_section_heading line = true ↔
      2 ≤ leadingHashCount (headingCandidate line) := by
  have h : is_section_heading line = ['#', '#'].isPrefixOf (headingCandidate line) := rfl
  rw [h, isPrefixOf_hashes_iff]

/-! ## Claim C10 -/

theorem not_mem_splitOnNewline (x : List Char) :
    ∀ l ∈ splitOnNewline x, '\n' ∉ l := by
  induction x with
  | nil => simp [splitOnNewline]
  | cons c rest ih =>
    by_cases h : c = '\n'
    · subst h
      simp only [splitOnNewline, List.splitOn] at ih ⊢
      simp only [List.splitOnP_cons, beq_self_eq_true, if_pos]
      intro l hl
      rcases List.mem_cons.mp hl with rfl | hl
      · simp
      · exact ih l hl
    · simp only [splitOnNewline, List.splitOn] at ih ⊢
      rw [List.splitOnP_cons, if_neg (by simp [h])]
      cases he : rest.splitOnP (· == '\n') with
      | nil => exact absurd he (List.splitOnP_ne_nil _ rest)
      | cons h₀ t =>
        intro l hl
        rcases List.mem_cons.mp hl with rfl | hl
        · intro hmem
          rcases List.mem_cons.mp hmem with hc | hmem
          · exact h hc.symm
          · exact ih h₀ (he ▸ List.mem_cons_self _ _) hmem
        · exact ih l (he ▸ List.mem_cons_of_mem _ hl)

theorem intercalate_splitOnNewline (x : List Char) :
    intercalateNewline (splitOnNewline x) = x :=
  List.intercalate_splitOn x '\n'

theorem splitOnNewline_intercalate (ls : List (List Char))
    (h : ∀ l ∈ ls, '\n' ∉ l) (hne : ls ≠ []) :
    splitOnNewline (intercalateNewline ls) = ls :=
  List.splitOn_intercalate ls '\n' h hne

theorem cleanGo_none_all_plain (ls : List (List Char))
    (h : ∀ l ∈ ls, is_section_heading l = false) :
    cleanGo none ls = ls := by
  induction ls with
  | nil => simp [cleanGo]
  | cons l rest ih =>
    have hl : is_section_heading l = false := h l (List.mem_cons_self _ _)
    simp only [cleanGo, hl, Bool.false_eq_true, if_false]
    rw [ih (fun l' hl' => h l' (List.mem_cons_of_mem _ hl'))]

/-- C10: for every input string in which no line is classified as a section
heading by `is_section_heading`, `clean_journal_content` returns the input
unchanged: every line passes through and the newline split/join
round-trips. -/
theorem c10_identity_on_heading_free (x : List Char)
    (h : ∀ l ∈ splitOnNewline x, is_section_heading l = false) :
    clean_journal_content x = x := by
  unfold clean_journal_content
  rw [show cleanGo none (splitOnNewline x) = splitOnNewline x
        from cleanGo_none_all_plain _ h,
      intercalate_splitOnNewline]

/-- Witness for C10 at a concrete heading-free two-line input. -/
theorem c10_identity_on_heading_free_witness :
    clean_journal_content "hello\n  world".toList = "hello\n  world".toList :=
  c10_identity_on_heading_free "hello\n  world".toList (by decide)

end LogseqUtils

namespace LogseqUtils

/-! ## Claim C2: idempotence of the clean policy

The proof goes through three steps: a section whose collected content
already witnesses "nested content" absorbs the rest of the scan without
dropping anything (`cleanGo_some_kept`); line sequences satisfying the
syntactic invariant `invGo` are fixed points of the scan (`invGo_clean`);
and every output of the scan satisfies `invGo` (`invGo_cleanGo`). -/

theorem cleanGo_some_kept (ls : List (List Char)) :
    ∀ s : Sec, s.content.any (contentWitness s.indent_level) = true →
      cleanGo (some s) ls = s.heading :: s.content.map Prod.fst ++ cleanGo none ls := by
  induction ls with
  | nil =>
    intro s hw
    simp [cleanGo, process_section, has_nested_content_eq_any, hw]
  | cons l rest ih =>
    intro s hw
    by_cases hh : is_section_heading l
    · simp [cleanGo, hh, process_section, has_nested_content_eq_any, hw]
    · by_cases hle : get_indentation_level l ≤ s.indent_level
      · simp [cleanGo, hh, hle, process_section, has_nested_content_eq_any, hw]
      · have hw' : ((s.content ++ [(l, get_indentation_level l)]).any
            (contentWitness s.indent_level)) = true := by
          simp [List.any_append, hw]
        have step := ih ⟨s.heading, s.indent_level,
          s.content ++ [(l, get_indentation_level l)]⟩ hw'
        simp only [cleanGo, hh, Bool.false_eq_true, if_false, hle] at step ⊢
        rw [step]
        simp

/-- The syntactic invariant of cleaned line sequences: every heading is
followed, within its run of strictly deeper non-heading lines, by at least
one non-blank line.  The `Option Nat` state is `some i` while scanning the
run of a heading with indent `i` that has not yet seen a non-blank line. -/
def invGo : Option Nat → List (List Char) → Bool
  | none, [] => true
  | some _, [] => false
  | none, l :: rest =>
    if is_section_heading l then invGo (some (get_indentation_level l)) rest
    else invGo none rest
  | some i, l :: rest =>
    if is_section_heading l || get_indentation_level l ≤ i then false
    else if pstrip l = [] then invGo (some i) rest
    else invGo none rest

theorem invGo_clean :
    ∀ n (ls : List (List Char)), ls.length ≤ n →
      (invGo none ls = true → cleanGo none ls = ls) ∧
      (∀ i h cont, invGo (some i) ls = true →
        cleanGo (some ⟨h, i, cont⟩) ls = h :: cont.map Prod.fst ++ ls) := by
  intro n
  induction n with
  | zero =>
    intro ls hlen
    rw [Nat.le_zero, List.length_eq_zero] at hlen
    subst hlen
    exact ⟨fun _ => by simp [cleanGo], fun i h cont hinv => by simp [invGo] at hinv⟩
  | succ n ihn =>
    intro ls hlen
    cases ls with
    | nil =>
      exact ⟨fun _ => by simp [cleanGo], fun i h cont hinv => by simp [invGo] at hinv⟩
    | cons l rest =>
      have hr : rest.length ≤ n := by
        simp only [List.length_cons] at hlen; omega
      constructor
      · intro hinv
        by_cases hh : is_section_heading l
        · have h2 := (ihn rest hr).2 (get_indentation_level l) l []
            (by simpa [invGo, hh] using hinv)
          simp [cleanGo, hh, h2]
        · have h1 := (ihn rest hr).1 (by simpa [invGo, hh] using hinv)
          simp [cleanGo, hh, h1]
      · intro i h cont hinv
        by_cases hh : is_section_heading l
        · simp [invGo, hh] at hinv
        · by_cases hle : get_indentation_level l ≤ i
          · simp [invGo, hh, hle] at hinv
          · by_cases hblank : pstrip l = []
            · have h2 := (ihn rest hr).2 i h (cont ++ [(l, get_indentation_level l)])
                (by simpa [invGo, hh, hle, hblank] using hinv)
              simp only [cleanGo, hh, Bool.false_eq_true, if_false, hle] at h2 ⊢
              rw [h2]
              simp
            · have hinv' : invGo none rest = true := by
                simpa [invGo, hh, hle, hblank] using hinv
              have h1 := (ihn rest hr).1 hinv'
              have hlt : i < get_indentation_level l := by omega
              have hw : ((cont ++ [(l, get_indentation_level l)]).any
                  (contentWitness i)) = true := by
                simp [List.any_append, contentWitness, List.isEmpty_eq_false,
                  hblank, hh, hlt]
              have step := cleanGo_some_kept rest
                ⟨h, i, cont ++ [(l, get_indentation_level l)]⟩ hw
              simp only [cleanGo, hh, Bool.false_eq_true, if_false, hle] at step ⊢
              rw [step, h1]
              simp

end LogseqUtils

namespace LogseqUtils

theorem invGo_none_append_nonheading (lines : List (List Char)) :
    ∀ k, (∀ l ∈ lines, is_section_heading l = false) →
      invGo none (lines ++ k) = invGo none k := by
  induction lines with
  | nil => intro k _; simp
  | cons l t ih =>
    intro k h
    have hl := h l (List.mem_cons_self _ _)
    simp only [List.cons_append, invGo, hl, Bool.false_eq_true, if_false]
    exact ih k (fun l' hl' => h l' (List.mem_cons_of_mem _ hl'))

theorem invGo_some_scan (lines : List (List Char)) :
    ∀ i k,
      (∀ l ∈ lines, is_section_heading l = false ∧ i < get_indentation_level l) →
      (∃ l ∈ lines, pstrip l ≠ []) →
      invGo none k = true →
      invGo (some i) (lines ++ k) = true := by
  induction lines with
  | nil =>
    intro i k _ hex _
    simp at hex
  | cons l t ih =>
    intro i k hall hex hk
    obtain ⟨hl1, hl2⟩ := hall l (List.mem_cons_self _ _)
    have hnle : ¬ get_indentation_level l ≤ i := by omega
    by_cases hblank : pstrip l = []
    · have hex' : ∃ l' ∈ t, pstrip l' ≠ [] := by
        rcases hex with ⟨l', hl', hne⟩
        rcases List.mem_cons.mp hl' with rfl | hmem
        · exact absurd hblank hne
        · exact ⟨l', hmem, hne⟩
      simp only [List.cons_append, invGo]
      rw [if_neg (by simp [hl1, hnle]), if_pos hblank]
      exact ih i k (fun l' hl' => hall l' (List.mem_cons_of_mem _ hl')) hex' hk
    · simp only [List.cons_append, invGo]
      rw [if_neg (by simp [hl1, hnle]), if_neg hblank]
      show invGo none (t ++ k) = true
      rw [invGo_none_append_nonheading t k
        (fun l' hl' => (hall l' (List.mem_cons_of_mem _ hl')).1)]
      exact hk

theorem invGo_none_process_section (s : Sec) (k : List (List Char))
    (hok : okSec s) (hk : invGo none k = true) :
    invGo none (process_section s ++ k) = true := by
  by_cases hn : has_nested_content s = true
  · have hrw : process_section s = s.heading :: s.content.map Prod.fst := by
      simp [process_section, hn]
    rw [hrw]
    simp only [List.cons_append, invGo, hok.1, if_pos]
    rw [show get_indentation_level s.heading = s.indent_level from hok.2.1.symm]
    apply invGo_some_scan
    · intro l hl
      rcases List.mem_map.mp hl with ⟨p, hp, rfl⟩
      obtain ⟨he, hlt, hhd⟩ := hok.2.2 p hp
      exact ⟨hhd, he ▸ hlt⟩
    · rw [has_nested_content_eq_any, List.any_eq_true] at hn
      rcases hn with ⟨p, hp, hw⟩
      simp only [contentWitness, Bool.and_eq_true, Bool.not_eq_true',
        List.isEmpty_eq_false, decide_eq_true_eq] at hw
      exact ⟨p.1, List.mem_map.mpr ⟨p, hp, rfl⟩, hw.1.1⟩
    · exact hk
  · have hfil : s.content.filter (fun p => p.2 ≤ s.indent_level) = [] := by
      rw [List.filter_eq_nil_iff]
      intro p hp
      have := (hok.2.2 p hp).2.1
      simp only [decide_eq_true_eq]
      omega
    have hrw : process_section s = [] := by
      simp [process_section, hn, hfil]
    rw [hrw]
    simpa using hk

end LogseqUtils

namespace LogseqUtils

theorem invGo_cleanGo (ls : List (List Char)) :
    ∀ cur, (∀ s, cur = some s → okSec s) →
      invGo none (cleanGo cur ls) = true := by
  induction ls with
  | nil =>
    intro cur hcur
    cases cur with
    | none => simp [cleanGo, invGo]
    | some s =>
      have h := invGo_none_process_section s [] (hcur s rfl) (by simp [invGo])
      simpa [cleanGo] using h
  | cons l rest ih =>
    intro cur hcur
    by_cases hh : is_section_heading l
    · have hnew : okSec ⟨l, get_indentation_level l, []⟩ :=
        ⟨hh, rfl, by intro p hp; simp at hp⟩
      have hrec := ih (some ⟨l, get_indentation_level l, []⟩)
        (by rintro s ⟨rfl⟩; exact hnew)
      cases cur with
      | none => simpa [cleanGo, hh] using hrec
      | some s =>
        have h := invGo_none_process_section s
          (cleanGo (some ⟨l, get_indentation_level l, []⟩) rest) (hcur s rfl) hrec
        simpa [cleanGo, hh] using h
    · cases cur with
      | none =>
        have hrec := ih none (by rintro s ⟨⟩)
        simp only [cleanGo, hh, Bool.false_eq_true, if_false]
        simp only [invGo, hh, Bool.false_eq_true, if_false]
        exact hrec
      | some s =>
        by_cases hle : get_indentation_level l ≤ s.indent_level
        · have hrec := ih none (by rintro s₀ ⟨⟩)
          have hstep : invGo none (l :: cleanGo none rest) = true := by
            simp only [invGo, hh, Bool.false_eq_true, if_false]
            exact hrec
          have h := invGo_none_process_section s (l :: cleanGo none rest)
            (hcur s rfl) hstep
          simpa [cleanGo, hh, hle] using h
        · have hok := hcur s rfl
          have hok' : okSec ⟨s.heading, s.indent_level,
              s.content ++ [(l, get_indentation_level l)]⟩ := by
            refine ⟨hok.1, hok.2.1, ?_⟩
            intro p hp
            rcases List.mem_append.mp hp with hp | hp
            · exact hok.2.2 p hp
            · simp only [List.mem_singleton] at hp
              subst hp
              refine ⟨rfl, ?_, by simpa using hh⟩
              show s.indent_level < get_indentation_level l
              omega
          have hrec := ih (some ⟨s.heading, s.indent_level,
              s.content ++ [(l, get_indentation_level l)]⟩)
            (by rintro s₀ ⟨rfl⟩; exact hok')
          simpa [cleanGo, hh, hle] using hrec

theorem cleanGo_idem (ls : List (List Char)) :
    cleanGo none (cleanGo none ls) = cleanGo none ls :=
  (invGo_clean (cleanGo none ls).length _ le_rfl).1
    (invGo_cleanGo ls none (by rintro s ⟨⟩))

end LogseqUtils

namespace LogseqUtils

theorem process_section_mem (s : Sec) (l : List Char)
    (h : l ∈ process_section s) :
    l = s.heading ∨ ∃ p ∈ s.content, l = p.1 := by
  unfold process_section at h
  split at h
  · rcases List.mem_cons.mp h with rfl | h
    · exact Or.inl rfl
    · rcases List.mem_map.mp h with ⟨p, hp, rfl⟩
      exact Or.inr ⟨p, hp, rfl⟩
  · rcases List.mem_map.mp h with ⟨p, hp, rfl⟩
    exact Or.inr ⟨p, List.mem_of_mem_filter hp, rfl⟩

theorem cleanGo_mem (ls : List (List Char)) :
    ∀ cur l, l ∈ cleanGo cur ls →
      l ∈ ls ∨ ∃ s, cur = some s ∧ (l = s.heading ∨ ∃ p ∈ s.content, l = p.1) := by
  induction ls with
  | nil =>
    intro cur l h
    cases cur with
    | none => simp [cleanGo] at h
    | some s =>
      exact Or.inr ⟨s, rfl, process_section_mem s l (by simpa [cleanGo] using h)⟩
  | cons x rest ih =>
    intro cur l h
    by_cases hh : is_section_heading x
    · have hsub : l ∈ cleanGo (some ⟨x, get_indentation_level x, []⟩) rest →
          l ∈ x :: rest ∨ ∃ s, cur = some s ∧
            (l = s.heading ∨ ∃ p ∈ s.content, l = p.1) := by
        intro hmem
        rcases ih _ l hmem with hmem | ⟨s', hs', hcase⟩
        · exact Or.inl (List.mem_cons_of_mem _ hmem)
        · cases Option.some.injEq .. ▸ hs' with
          | refl =>
            rcases hcase with rfl | ⟨p, hp, _⟩
            · exact Or.inl (List.mem_cons_self _ _)
            · simp at hp
      cases cur with
      | none =>
        simp only [cleanGo, hh, if_pos, List.nil_append] at h
        exact hsub h
      | some s =>
        simp only [cleanGo, hh, if_pos] at h
        rcases List.mem_append.mp h with h | h
        · exact Or.inr ⟨s, rfl, process_section_mem s l h⟩
        · exact hsub h
    · cases cur with
      | none =>
        simp only [cleanGo, hh, Bool.false_eq_true, if_false] at h
        rcases List.mem_cons.mp h with rfl | h
        · exact Or.inl (List.mem_cons_self _ _)
        · rcases ih none l h with h | ⟨s', hs', _⟩
          · exact Or.inl (List.mem_cons_of_mem _ h)
          · exact absurd hs' (by simp)
      | some s =>
        by_cases hle : get_indentation_level x ≤ s.indent_level
        · simp only [cleanGo, hh, Bool.false_eq_true, if_false, hle, if_pos] at h
          rcases List.mem_append.mp h with h | h
          · exact Or.inr ⟨s, rfl, process_section_mem s l h⟩
          · rcases List.mem_cons.mp h with rfl | h
            · exact Or.inl (List.mem_cons_self _ _)
            · rcases ih none l h with h | ⟨s', hs', _⟩
              · exact Or.inl (List.mem_cons_of_mem _ h)
              · exact absurd hs' (by simp)
        · simp only [cleanGo, hh, Bool.false_eq_true, if_false, hle] at h
          rcases ih _ l h with h | ⟨s', hs', hcase⟩
          · exact Or.inl (List.mem_cons_of_mem _ h)
          · cases Option.some.injEq .. ▸ hs' with
            | refl =>
              rcases hcase with rfl | ⟨p, hp, rfl⟩
              · exact Or.inr ⟨s, rfl, Or.inl rfl⟩
              · rcases List.mem_append.mp hp with hp | hp
                · exact Or.inr ⟨s, rfl, Or.inr ⟨p, hp, rfl⟩⟩
                · simp only [List.mem_singleton] at hp
                  subst hp
                  exact Or.inl (List.mem_cons_self _ _)

theorem cleanGo_no_newline (ls : List (List Char))
    (h : ∀ l ∈ ls, '\n' ∉ l) :
    ∀ l ∈ cleanGo none ls, '\n' ∉ l := by
  intro l hl
  rcases cleanGo_mem ls none l hl with hmem | ⟨s, hs, _⟩
  · exact h l hmem
  · exact absurd hs (by simp)

/-! ## Claim C2: statement -/

/-- C2: idempotence of the clean policy — for every input string,
applying `clean_journal_content` twice gives the same result as applying it
once. -/
theorem c2_clean_idempotent (x : List Char) :
    clean_journal_content (clean_journal_content x) = clean_journal_content x := by
  unfold clean_journal_content
  by_cases hne : cleanGo none (splitOnNewline x) = []
  · rw [hne]
    decide
  · rw [splitOnNewline_intercalate _
        (cleanGo_no_newline _ (not_mem_splitOnNewline x)) hne,
      cleanGo_idem]

end LogseqUtils

namespace LogseqUtils

/-! ## Claim C6 -/

theorem parse_atx_heading_level (s : List Char) (lvl : Nat) (t : List Char)
    (h : parse_atx_heading s = some (lvl, t)) : 1 ≤ lvl ∧ lvl ≤ 6 := by
  unfold parse_atx_heading at h
  split at h
  · rename_i hk
    split at h
    · exact absurd h (by simp)
    · split at h
      · cases Option.some.inj h
        exact hk
      · exact absurd h (by simp)
  · exact absurd h (by simp)

theorem is_setext_underline_level (u : List Char) (lvl : Nat)
    (h : is_setext_underline u = some lvl) : lvl = 1 ∨ lvl = 2 := by
  unfold is_setext_underline at h
  split at h
  · exact Or.inl (Option.some.inj h).symm
  · split at h
    · exact Or.inr (Option.some.inj h).symm
    · exact absurd h (by simp)

theorem flushParagraph_mem (pending : List (List Char)) (b : Block)
    (h : b ∈ flushParagraph pending) : ∃ tx, b = Block.paragraph tx := by
  unfold flushParagraph at h
  split at h
  · simp at h
  · split at h
    · simp at h
    · exact ⟨_, List.mem_singleton.mp h⟩

theorem heading_not_mem_flushIte (c : Prop) [Decidable c]
    (pending : List (List Char)) (lvl : Nat) (t : List Char) :
    Block.heading lvl t ∉ (if c then flushParagraph pending else []) := by
  intro h
  split at h
  · rcases flushParagraph_mem pending _ h with ⟨tx, htx⟩
    simp at htx
  · simp at h

theorem parseBlocksGo_heading_level (mode : PMode) :
    ∀ n (ls pending : List (List Char)), ls.length ≤ n →
      ∀ lvl t, Block.heading lvl t ∈ parseBlocksGo mode pending ls →
        1 ≤ lvl ∧ lvl ≤ 6 := by
  intro n
  induction n with
  | zero =>
    intro ls pending hlen lvl t h
    rw [Nat.le_zero, List.length_eq_zero] at hlen
    subst hlen
    rcases flushParagraph_mem pending _ (by simpa [parseBlocksGo] using h)
      with ⟨tx, htx⟩
    simp at htx
  | succ n ihn =>
    intro ls pending hlen lvl t h
    have hflush : ∀ p : List (List Char),
        Block.heading lvl t ∈ parseBlocksGo mode p [] → False := by
      intro p hp
      rcases flushParagraph_mem p _ (by simpa [parseBlocksGo] using hp)
        with ⟨tx, htx⟩
      simp at htx
    cases ls with
    | nil => exact absurd h (fun hh => hflush pending hh)
    | cons l rest =>
      cases rest with
      | nil =>
        rw [parseBlocksGo] at h
        split at h
        · split at h
          · rcases List.mem_append.mp h with h | h
            · rcases flushParagraph_mem pending _ h with ⟨tx, htx⟩
              simp at htx
            · exact absurd h (fun hh => hflush [] hh)
          · exact absurd h (fun hh => hflush pending hh)
        · split at h
          · rename_i lvl' t' hatx
            rcases List.mem_append.mp h with h | h
            · exact absurd h (heading_not_mem_flushIte _ pending lvl t)
            · rcases List.mem_cons.mp h with heq | h
              · obtain ⟨rfl, rfl⟩ := by simpa using heq
                exact parse_atx_heading_level _ lvl t hatx
              · exact absurd h (fun hh => hflush _ hh)
          · split at h
            · rcases List.mem_cons.mp h with heq | h
              · simp at heq
              · exact absurd h (fun hh => hflush pending hh)
            · exact absurd h (fun hh => hflush _ hh)
      | cons u rest2 =>
        have hr1 : (u :: rest2).length ≤ n := by
          simp only [List.length_cons] at hlen ⊢; omega
        have hr2 : rest2.length ≤ n := by
          simp only [List.length_cons] at hlen; omega
        rw [parseBlocksGo] at h
        split at h
        · split at h
          · rcases List.mem_append.mp h with h | h
            · rcases flushParagraph_mem pending _ h with ⟨tx, htx⟩
              simp at htx
            · exact ihn _ [] hr1 lvl t h
          · exact ihn _ pending hr1 lvl t h
        · split at h
          · rename_i lvl' t' hatx
            rcases List.mem_append.mp h with h | h
            · exact absurd h (heading_not_mem_flushIte _ pending lvl t)
            · rcases List.mem_cons.mp h with heq | h
              · obtain ⟨rfl, rfl⟩ := by simpa using heq
                exact parse_atx_heading_level _ lvl t hatx
              · exact ihn _ _ hr1 lvl t h
          · split at h
            · rename_i lvl' hset
              rcases List.mem_append.mp h with h | h
              · exact absurd h (heading_not_mem_flushIte _ pending lvl t)
              · rcases List.mem_cons.mp h with heq | h
                · obtain ⟨rfl, rfl⟩ := by simpa using heq
                  rcases is_setext_underline_level _ lvl hset with rfl | rfl <;> omega
                · exact ihn _ _ hr2 lvl t h
            · split at h
              · rcases List.mem_cons.mp h with heq | h
                · simp at heq
                · exact ihn _ pending hr1 lvl t h
              · exact ihn _ _ hr1 lvl t h

/-- C6: every heading block of level n is rendered as an outline entry at
abstraction-indent `max 0 (n-1)` — a bullet marker, `n` hash characters, a
space and the heading text, indented two spaces per abstraction-indent
level — and the parser only produces heading levels in 1..6; in particular
`"## Title"` renders as `"  - ## Title"` and `"### Title"` as
`"    - ### Title"`. -/
theorem c6_heading_rendering :
    (∀ cur lvl text rest,
      renderBlocks cur (Block.heading lvl text :: rest) =
        (make_indent (max 0 (lvl - 1)) 2 ++ ['-', ' '] ++
          List.replicate lvl '#' ++ [' '] ++ text) :: renderBlocks lvl rest) ∧
    (∀ n, make_indent n 2 = List.replicate (2 * n) ' ') ∧
    (∀ text mode lvl btext,
      Block.heading lvl btext ∈ parse_markdown_blocks text mode →
        1 ≤ lvl ∧ lvl ≤ 6) ∧
    convert_to_logseq_outline "## Title".toList PMode.lines =
      "  - ## Title\n".toList ∧
    convert_to_logseq_outline "### Title".toList PMode.lines =
      "    - ### Title\n".toList := by
  refine ⟨fun cur lvl text rest => rfl, fun n => ?_, ?_, by decide, by decide⟩
  · simp [make_indent, Nat.mul_comm]
  · intro text mode lvl btext h
    exact parseBlocksGo_heading_level mode (splitlines text).length
      (splitlines text) [] le_rfl lvl btext h

/-- Witness for C6: the heading parsed from `"## Title"` has level within
1..6. -/
theorem c6_heading_rendering_witness : 1 ≤ 2 ∧ 2 ≤ 6 :=
  c6_heading_rendering.2.2.1 "## Title".toList PMode.lines 2 "Title".toList
    (by decide)

end LogseqUtils

namespace LogseqUtils

/-! ## Claim C7 -/

/-- A line the block parser treats as plain paragraph material: non-blank,
not an ATX heading candidate, and not itself a setext underline. -/
def plainParagraphLine (l : List Char) : Prop :=
  pstrip l ≠ [] ∧ parse_atx_heading (bulletCandidate (pstrip l)) = none ∧
    is_setext_underline l = none

instance (l : List Char) : Decidable (plainParagraphLine l) := by
  unfold plainParagraphLine
  infer_instance

theorem intercalate_space_ne_nil (run : List (List Char)) (hne : run ≠ [])
    (hnb : ∀ l ∈ run, l ≠ []) :
    List.intercalate [' '] run ≠ [] := by
  cases run with
  | nil => exact absurd rfl hne
  | cons x xs =>
    cases xs with
    | nil =>
      simpa [List.intercalate] using hnb x (List.mem_cons_self _ _)
    | cons y ys =>
      simp only [List.intercalate, List.intersperse_cons_cons, List.flatten]
      intro hcontra
      rw [List.append_eq_nil] at hcontra
      exact hnb x (List.mem_cons_self _ _) hcontra.1

theorem flushParagraph_run (run : List (List Char)) (hne : run ≠ [])
    (hnb : ∀ l ∈ run, pstrip l ≠ []) :
    flushParagraph run =
      [Block.paragraph (List.intercalate [' '] (run.map pstrip))] := by
  have hfil : run.filter (fun l => decide (pstrip l ≠ [])) = run :=
    List.filter_eq_self.mpr (fun a ha => by simpa using hnb a ha)
  have htext : List.intercalate [' '] (run.map pstrip) ≠ [] := by
    apply intercalate_space_ne_nil
    · simpa using hne
    · intro l hl
      rcases List.mem_map.mp hl with ⟨a, ha, rfl⟩
      exact hnb a ha
  unfold flushParagraph flushText
  rw [if_neg hne, hfil, if_neg htext]

theorem parseBlocksGo_lines_run (rest : List (List Char))
    (hhead : ∀ u, rest.head? = some u → is_setext_underline u = none) :
    ∀ run, (∀ l ∈ run, plainParagraphLine l) →
      parseBlocksGo PMode.lines [] (run ++ rest) =
        run.map (fun l => Block.paragraph (pstrip l)) ++
          parseBlocksGo PMode.lines [] rest := by
  intro run
  induction run with
  | nil => intro _; simp
  | cons l t ih =>
    intro hrun
    obtain ⟨hnb, hatx, -⟩ := hrun l (List.mem_cons_self _ _)
    have ht := fun l' hl' => hrun l' (List.mem_cons_of_mem _ hl')
    cases htr : t ++ rest with
    | nil =>
      have ht0 : t = [] := by cases t with
        | nil => rfl
        | cons a b => simp at htr
      have hr0 : rest = [] := by rw [ht0] at htr; simpa using htr
      subst ht0; subst hr0
      simp [parseBlocksGo, hnb, hatx, flushParagraph]
    | cons u w =>
      have hu : is_setext_underline u = none := by
        cases t with
        | nil =>
          apply hhead
          simp only [List.nil_append] at htr
          rw [htr]
          rfl
        | cons a b =>
          simp only [List.cons_append, List.cons.injEq] at htr
          exact htr.1 ▸ (ht a (List.mem_cons_self _ _)).2.2
      rw [List.cons_append, htr, parseBlocksGo]
      rw [if_neg hnb, hatx]
      simp only [hu]
      rw [← htr, ih ht]
      simp
  
theorem parseBlocksGo_blocks_run (rest : List (List Char))
    (hhead : ∀ u, rest.head? = some u → is_setext_underline u = none) :
    ∀ run, (∀ l ∈ run, plainParagraphLine l) →
      ∀ pending,
        parseBlocksGo PMode.blocks pending (run ++ rest) =
          parseBlocksGo PMode.blocks (pending ++ run) rest := by
  intro run
  induction run with
  | nil => intro _ pending; simp
  | cons l t ih =>
    intro hrun pending
    obtain ⟨hnb, hatx, -⟩ := hrun l (List.mem_cons_self _ _)
    have ht := fun l' hl' => hrun l' (List.mem_cons_of_mem _ hl')
    cases htr : t ++ rest with
    | nil =>
      have ht0 : t = [] := by cases t with
        | nil => rfl
        | cons a b => simp at htr
      have hr0 : rest = [] := by rw [ht0] at htr; simpa using htr
      subst ht0; subst hr0
      simp [parseBlocksGo, hnb, hatx]
    | cons u w =>
      have hu : is_setext_underline u = none := by
        cases t with
        | nil =>
          apply hhead
          simp only [List.nil_append] at htr
          rw [htr]
          rfl
        | cons a b =>
          simp only [List.cons_append, List.cons.injEq] at htr
          exact htr.1 ▸ (ht a (List.mem_cons_self _ _)).2.2
      rw [List.cons_append, htr, parseBlocksGo]
      rw [if_neg hnb, hatx]
      simp only [hu]
      rw [← htr]
      have := ih ht (pending ++ [l])
      simp only [List.append_assoc, List.singleton_append] at this
      simpa using this

/-- C7: paragraph-mode semantics.  In `lines` mode every line of a run of
plain paragraph lines becomes its own paragraph entry; in `blocks` mode the
run is accumulated and flushed (at a blank line, a heading, or end of
input) into one paragraph entry whose text is the space-joined sequence of
the individually stripped lines; on input `"Line A\nLine B"` the two modes
produce two entries and one entry `"Line A Line B"` respectively. -/
theorem c7_paragraph_modes :
    (∀ rest, (∀ u, rest.head? = some u → is_setext_underline u = none) →
      ∀ run, (∀ l ∈ run, plainParagraphLine l) →
        parseBlocksGo PMode.lines [] (run ++ rest) =
          run.map (fun l => Block.paragraph (pstrip l)) ++
            parseBlocksGo PMode.lines [] rest) ∧
    (∀ rest, (∀ u, rest.head? = some u → is_setext_underline u = none) →
      ∀ run, (∀ l ∈ run, plainParagraphLine l) →
        ∀ pending,
          parseBlocksGo PMode.blocks pending (run ++ rest) =
            parseBlocksGo PMode.blocks (pending ++ run) rest) ∧
    (∀ run, run ≠ [] → (∀ l ∈ run, pstrip l ≠ []) →
      flushParagraph run =
        [Block.paragraph (List.intercalate [' '] (run.map pstrip))]) ∧
    parse_markdown_blocks "Line A\nLine B".toList PMode.lines =
      [Block.paragraph "Line A".toList, Block.paragraph "Line B".toList] ∧
    parse_markdown_blocks "Line A\nLine B".toList PMode.blocks =
      [Block.paragraph "Line A Line B".toList] :=
  ⟨parseBlocksGo_lines_run, parseBlocksGo_blocks_run, flushParagraph_run,
   by decide, by decide⟩

/-- Witness for C7 at the concrete run `["Line A", "Line B"]` with empty
terminator. -/
theorem c7_paragraph_modes_witness :
    parseBlocksGo PMode.lines [] (["Line A".toList, "Line B".toList] ++ []) =
      ["Line A".toList, "Line B".toList].map
        (fun l => Block.paragraph (pstrip l)) ++
      parseBlocksGo PMode.lines [] [] :=
  c7_paragraph_modes.1 [] (by intro u h; simp at h)
    ["Line A".toList, "Line B".toList] (by decide)

end LogseqUtils

namespace LogseqUtils

/-! ## Claim C8 -/

/-- C8 counterexample: with both the in-place flag and an explicit output
path, `md_to_logseq_outline.py`'s `main` does return exit code 2 and writes
nothing, but it first reads the input and performs the conversion — the
`transform` effect precedes the exit, contradicting "fails fast ... before
any processing (no transformation is performed)". -/
theorem c8_counterexample :
    md_main ⟨some "in.md".toList, PMode.lines, some "out.md".toList, true⟩
        "x".toList =
      (2, [Eff.readInput, Eff.transform], none) ∧
    Eff.transform ∈
      (md_main ⟨some "in.md".toList, PMode.lines, some "out.md".toList, true⟩
        "x".toList).2.1 := by
  decide

/-- C8 amended: when both the in-place flag and an explicit output path are
supplied, both tools return exit code 2 and write no output; the citation
cleaner (`clean_perplexity_sources.py`) checks the flags before any reading
or processing, while the outline converter (`md_to_logseq_outline.py`) reads
and converts in memory first but still writes nothing. -/
theorem c8_conflicting_flags (margs : MdArgs) (text : List Char)
    (pargs : PpxArgs)
    (hmd : margs.inPlace = true) (hmo : margs.output.isSome = true)
    (hpd : pargs.inPlace = true) (hpo : pargs.output.isSome = true) :
    (md_main margs text).1 = 2 ∧
    (md_main margs text).2.2 = none ∧
    Eff.writeOut ∉ (md_main margs text).2.1 ∧
    ppx_main pargs = (2, [], false) := by
  refine ⟨?_, ?_, ?_, ?_⟩ <;>
    simp [md_main, ppx_main, hmd, hmo, hpd, hpo]

/-- Witness for C8 (amended) at concrete conflicting arguments. -/
theorem c8_conflicting_flags_witness :
    (md_main ⟨some "a.md".toList, PMode.lines, some "b.md".toList, true⟩
        "x".toList).1 = 2 ∧
    (md_main ⟨some "a.md".toList, PMode.lines, some "b.md".toList, true⟩
        "x".toList).2.2 = none ∧
    Eff.writeOut ∉
      (md_main ⟨some "a.md".toList, PMode.lines, some "b.md".toList, true⟩
        "x".toList).2.1 ∧
    ppx_main ⟨some "a.md".toList, some "b.md".toList, true, false⟩ =
      (2, [], false) :=
  c8_conflicting_flags
    ⟨some "a.md".toList, PMode.lines, some "b.md".toList, true⟩ "x".toList
    ⟨some "a.md".toList, some "b.md".toList, true, false⟩ rfl rfl rfl rfl

end LogseqUtils
